import Mathlib

/-!
Shallow embedding of the subproblem decomposers of dwave-hybrid
(`hybrid/decomposers.py`), together with theorems checking the
specification's claims about them.

Variables of a binary quadratic model (BQM) are natural numbers.  Python
sets of vars are `Finset ℕ`, Python lists are `List ℕ`, and floats
are `ℚ` (the decomposition logic only compares, adds and multiplies
scores, so rationals are a faithful carrier).
-/

namespace DwaveHybrid

abbrev Var : Type := ℕ

/-- The Python exceptions and failure conditions the decomposer code can
produce. -/
inductive PyErr where
  | valueError
  | typeError
  | indexError
  | notImplementedError
  | nodeNotFound
  | builderError
  | stopIteration
  deriving DecidableEq, Repr

/-- A networkx-style undirected graph: nodes in insertion order, and an
adjacency association list per node with neighbors in insertion order. -/
structure NxGraph where
  nodes : List Var
  adjList : List (Var × List Var)
  deriving DecidableEq, Repr

/-- Neighbors of `v` (empty for a node absent from the graph). -/
def NxGraph.adj (g : NxGraph) (v : Var) : List Var :=
  (g.adjList.find? (fun p => p.1 == v)).elim [] Prod.snd

/-- `graph.remove_nodes_from(s)`: drop the nodes of `s` and all their
incident edges. -/
def NxGraph.removeNodes (g : NxGraph) (s : Finset Var) : NxGraph where
  nodes := g.nodes.filter (fun v => decide (v ∉ s))
  adjList := (g.adjList.filter (fun p => decide (p.1 ∉ s))).map
    (fun p => (p.1, p.2.filter (fun u => decide (u ∉ s))))

/-- Well-formedness: every adjacency entry only mentions graph nodes. -/
def NxGraph.WF (g : NxGraph) : Prop :=
  ∀ p ∈ g.adjList, ∀ u ∈ p.2, u ∈ g.nodes

instance (g : NxGraph) : Decidable g.WF := by
  unfold NxGraph.WF; infer_instance

/-- `networkx.Graph.add_edge u v`: insert both endpoints (in the order
`u`, `v`) and the two symmetric adjacency entries, preserving insertion
order and ignoring duplicates. -/
def NxGraph.addEdge (g : NxGraph) (u v : Var) : NxGraph :=
  let nodes1 := if g.nodes.contains u then g.nodes else g.nodes ++ [u]
  let nodes2 := if nodes1.contains v then nodes1 else nodes1 ++ [v]
  let withU := if (g.adjList.find? (fun p => p.1 == u)).isSome then g.adjList
    else g.adjList ++ [(u, [])]
  let withV := if (withU.find? (fun p => p.1 == v)).isSome then withU
    else withU ++ [(v, [])]
  { nodes := nodes2
    adjList := withV.map (fun p =>
      if p.1 == u then (p.1, if p.2.contains v then p.2 else p.2 ++ [v])
      else if p.1 == v then (p.1, if p.2.contains u then p.2 else p.2 ++ [u])
      else p) }

/-- The discovery order of `nx.bfs_edges(g, source)`: the sequence of
edge targets in breadth-first order, driven by an explicit FIFO `queue`
and `seen` list; `fuel` bounds the number of dequeue steps (adjacency
lists of real graphs contain no duplicates). -/
def bfsRun (g : NxGraph) : ℕ → List Var → List Var → List Var
  | 0, _, _ => []
  | _ + 1, [], _ => []
  | fuel + 1, u :: rest, seen =>
    let fresh := (g.adj u).filter (fun v => !(seen.contains v))
    fresh ++ bfsRun g fuel (rest ++ fresh) (seen ++ fresh)

/-- `EnergyImpactDecomposer._bfs_nodes`: BFS from `source`, returning up
to `size` nodes, source included; the priority callable is ignored. -/
def nxBfsNodes (g : NxGraph) (source : Var) (size : ℕ) (prioFn : Var → ℚ) : List Var :=
  if size < 1 then []
  else source :: (bfsRun g (g.nodes.length + 1) [source] [source]).take (size - 1)

/-- Pop the minimum entry of the queue, ordered by the pair
`(negated priority, insertion counter)` — exactly how Python's `heapq`
orders the pushed triples (counters are unique, so the node field is
never compared). -/
def heapPopMin : List (ℚ × ℕ × Var) → Option ((ℚ × ℕ × Var) × List (ℚ × ℕ × Var))
  | [] => none
  | e :: rest =>
    match heapPopMin rest with
    | none => some (e, [])
    | some (m, rest2) =>
      if e.1 < m.1 ∨ (e.1 = m.1 ∧ e.2.1 < m.2.1) then some (e, rest)
      else some (m, e :: rest2)

/-- The main loop of `EnergyImpactDecomposer._pfs_nodes`: `queue` holds
`(-priority node, counter, node)` triples, `counter` counts pushes,
`visited` is the visit order so far, `enqueued` the enqueued nodes. -/
def pfsRun (g : NxGraph) (prioFn : Var → ℚ) (size : ℕ) :
    ℕ → List (ℚ × ℕ × Var) → ℕ → List Var → List Var → List Var
  | 0, _, _, visited, _ => visited
  | fuel + 1, queue, counter, visited, enqueued =>
    if visited.length < size then
      match heapPopMin queue with
      | none => visited
      | some (e, queue2) =>
        if visited.contains e.2.2 then
          pfsRun g prioFn size fuel queue2 counter visited enqueued
        else
          let fresh := (g.adj e.2.2).filter (fun u => !(enqueued.contains u))
          pfsRun g prioFn size fuel
            (queue2 ++ fresh.enum.map (fun p => (-(prioFn p.2), counter + p.1, p.2)))
            (counter + fresh.length) (visited ++ [e.2.2]) (enqueued ++ fresh)
    else visited

/-- `EnergyImpactDecomposer._pfs_nodes`: priority-first traversal from
`source`, up to `size` nodes, returned in visit order (Python returns the
final visited set; only its membership is ever used downstream). -/
def nxPfsNodes (g : NxGraph) (source : Var) (size : ℕ) (prioFn : Var → ℚ) : List Var :=
  if size < 1 then []
  else
    pfsRun g prioFn size
      (g.nodes.length + 2 + (g.adjList.map (fun p => p.2.length)).sum)
      [(-(prioFn source), 0, source)] 1 [] []

/-- `EnergyImpactDecomposer._energy`: the first `size` vars of the
ranked order not in `visited`. -/
def energyTraverse (orderedPriority : List Var) (visited : Finset Var) (size : ℕ) : List Var :=
  (orderedPriority.filter (fun v => decide (v ∉ visited))).take size

/-- The `while` loop of `EnergyImpactDecomposer._iterative_graph_search`:
`order` is the not-yet-tried suffix of the ranked variable order;
`vars` accumulates the selection while consumed nodes are removed
from `graph` before the next multi-start round. -/
def igsGo (method : NxGraph → Var → ℕ → (Var → ℚ) → List Var)
    (prioFn : Var → ℚ) (visited : Finset Var) (size : ℕ) :
    NxGraph → List Var → Finset Var → Finset Var
  | graph, order, vars =>
    if size ≤ vars.card ∨ graph.nodes = [] then vars
    else
      match horder : order.dropWhile (fun v => decide (v ∈ visited) || decide (v ∈ vars)) with
      | [] => vars
      | source :: order2 =>
        let nodes := method graph source (size - vars.card) prioFn
        igsGo method prioFn visited size (graph.removeNodes nodes.toFinset) order2
          (vars ∪ nodes.toFinset)
  termination_by _ order _ => order.length
  decreasing_by
    have h1 : ∀ (l : List Var) (p : Var → Bool), (l.dropWhile p).length ≤ l.length := by
      intro l p
      induction l with
      | nil => simp
      | cons a t ih =>
        rw [List.dropWhile_cons]
        split
        · exact Nat.le_trans ih (Nat.le_succ _)
        · exact Nat.le_refl _
    have h2 := h1 order (fun v => decide (v ∈ visited) || decide (v ∈ vars))
    rw [horder] at h2
    simp only [List.length_cons] at h2
    omega

/-- `EnergyImpactDecomposer._iterative_graph_search`: remove the visited
vars from the problem graph, then run the multi-start `method`
seeded along the ranked order (`ordered_priority.get` is the priority
callable). -/
def iterativeGraphSearch (method : NxGraph → Var → ℕ → (Var → ℚ) → List Var)
    (graph : NxGraph) (orderedPriority : List (Var × ℚ)) (visited : Finset Var)
    (size : ℕ) : Finset Var :=
  igsGo method (fun v => (List.lookup v orderedPriority).getD 0) visited size
    (graph.removeNodes visited) (orderedPriority.map Prod.fst) ∅

/-- Configuration of an `EnergyImpactDecomposer` (`size`, `rolling`,
`rolling_history`, `silent_rewind`). -/
structure EIDConfig where
  size : ℕ
  rolling : Bool
  rollingHistory : ℚ
  silentRewind : Bool
  deriving DecidableEq, Repr

/-- `EnergyImpactDecomposer.__init__`: the validation performed at
construction time.  The Python condition is
`rolling and rolling_history < 0.0 or rolling_history > 1.0`, which
parses as `(rolling and rolling_history < 0.0) or (rolling_history > 1.0)`;
the traversal-name check follows it. -/
def eidInit (size : ℕ) (rolling : Bool) (rollingHistory : ℚ)
    (silentRewind : Bool) (traversal : String) : Except PyErr EIDConfig :=
  if (rolling && decide (rollingHistory < 0)) || decide (1 < rollingHistory) then
    .error .valueError
  else if !(traversal == "energy" || traversal == "bfs" || traversal == "pfs") then
    .error .valueError
  else
    .ok { size := size, rolling := rolling, rollingHistory := rollingHistory
          silentRewind := silentRewind }

/-- Observable outcome of one `EnergyImpactDecomposer.next` call in the
steady state: whether the rolling rewind fired, whether `EndOfStream` was
raised, the selected vars, and `_unrolled_vars` after the call. -/
structure EIDCall where
  rewound : Bool
  signal : Bool
  nextVars : List Var
  unrolledAfter : Finset Var
  deriving DecidableEq

/-- `EnergyImpactDecomposer.next` in the regime where the incoming
problem and sample equal the cached ones (`bqm_changed` and
`sample_changed` both false), so the cached ranked order is reused and
the only mutable state is `_unrolled_vars`.  The first call after
construction is also covered: its problem-changed `_rewind_rolling`
clears an already empty set.  `n = len(bqm)`, and `tf` is the configured
traversal strategy `self.traverse` applied to the cached ranked order.
The rewind condition is `len(_unrolled_vars) >= rolling_history * len(bqm)`;
on a rewind with `silent_rewind=False` the exception is raised after the
state reset.  Note the traversal is invoked with `size=self.size`, not
with the locally clamped size. -/
def eidNext (cfg : EIDConfig) (n : ℕ) (tf : Finset Var → ℕ → List Var)
    (unrolled : Finset Var) : EIDCall :=
  let rewind := cfg.rolling && decide (cfg.rollingHistory * (n : ℚ) ≤ (unrolled.card : ℚ))
  let u1 := if rewind then (∅ : Finset Var) else unrolled
  if rewind && !cfg.silentRewind then
    { rewound := true, signal := true, nextVars := [], unrolledAfter := ∅ }
  else
    let nv := tf u1 cfg.size
    { rewound := rewind, signal := false, nextVars := nv
      unrolledAfter := if cfg.rolling then u1 ∪ nv.toFinset else u1 }

/-- `_unrolled_vars` after `k` successive `next` calls on an unchanged
problem and sample (the set is empty at construction). -/
def eidIter (cfg : EIDConfig) (n : ℕ) (tf : Finset Var → ℕ → List Var) : ℕ → Finset Var
  | 0 => ∅
  | k + 1 => (eidNext cfg n tf (eidIter cfg n tf k)).unrolledAfter

/-- A binary quadratic model: vars, linear biases, and quadratic
interactions (each unordered pair listed once). -/
structure BQM where
  vars : List Var
  linear : List (Var × ℚ)
  quadratic : List ((Var × Var) × ℚ)
  deriving DecidableEq, Repr

/-- Linear bias of `v`. -/
def BQM.bias (b : BQM) (v : Var) : ℚ := (List.lookup v b.linear).getD 0

/-- Interaction weight between `u` and `v`. -/
def BQM.inter (b : BQM) (u v : Var) : ℚ :=
  ((b.quadratic.filter (fun e =>
    (e.1.1 == u && e.1.2 == v) || (e.1.1 == v && e.1.2 == u))).map Prod.snd).sum

/-- Neighbors of `v`: vars sharing a quadratic term with `v`. -/
def BQM.adjOf (b : BQM) (v : Var) : List Var :=
  b.quadratic.filterMap (fun e =>
    if e.1.1 == v then some e.1.2 else if e.1.2 == v then some e.1.1 else none)

/-- Modelled from the spec: `hybrid.utils.bqm_induced_by` (§4.2 of the
spec; the function body is not among the sources at hand).  The induced
subproblem has exactly the selected vars, copies interactions among
them unchanged, folds each excluded neighbor's fixed sample value times
the interaction weight into the selected variable's linear bias, and
fails if the selection is empty or mentions a variable absent from the
problem. -/
def bqmInducedBy (b : BQM) (selection : List Var) (sample : Var → ℚ) : Except PyErr BQM :=
  if selection.isEmpty || selection.any (fun v => !(b.vars.contains v)) then
    .error .builderError
  else
    .ok { vars := selection
          linear := selection.map (fun v =>
            (v, b.bias v + (((b.adjOf v).filter (fun u => !(selection.contains u))).map
              (fun u => sample u * b.inter v u)).sum))
          quadratic := b.quadratic.filter (fun e =>
            selection.contains e.1.1 && selection.contains e.1.2) }

/-- Modelled from the spec: `hybrid.utils.select_random_subgraph` (§4.5;
not among the sources at hand) picks `size` vars uniformly at
random; the draw is determinized by `seed`, each seed realizing one
possible outcome. -/
def selectRandomSubgraph (b : BQM) (size : ℕ) (seed : ℕ) : List Var :=
  (b.vars.rotate seed).take size

/-- `RandomSubproblemDecomposer.next`: raise `ValueError` when the
requested size exceeds the problem size, else induce the subproblem on a
random selection. -/
def randomSubNext (size : ℕ) (b : BQM) (sample : Var → ℚ) (seed : ℕ) : Except PyErr BQM :=
  if b.vars.length < size then .error .valueError
  else bqmInducedBy b (selectRandomSubgraph b size seed) sample

/-- A Chimera tile produced at setup: its position key and the embedding
mapping problem vars to chains of hardware nodes.  Modelled from the
spec: `hybrid.utils.chimera_tiles` (§4.6; not among the sources at hand)
yields a fixed finite sequence of such tiles. -/
structure Tile where
  pos : ℕ × ℕ
  embedding : List (Var × List ℕ)
  deriving DecidableEq, Repr

/-- `TilingChimeraDecomposer`: `init` stores `iter(tiles.items())`,
wrapped in `itertools.cycle` when `loop` is set, and each `next` call
advances it; `callIdx` counts the calls already made.  An exhausted
iterator raises `StopIteration` — the end-of-stream condition. -/
def tilingNextTile (tiles : List Tile) (loop : Bool) (callIdx : ℕ) : Except PyErr Tile :=
  if loop then
    if tiles.isEmpty then .error .stopIteration
    else .ok (tiles.getD (callIdx % tiles.length) ⟨(0, 0), []⟩)
  else if hlt : callIdx < tiles.length then .ok (tiles.get ⟨callIdx, hlt⟩)
  else .error .stopIteration

/-- The edge set built by `RandomConstraintDecomposer.init`: an edge
`(i, ci)` for each later group `i` sharing a variable with group `ci`,
in the iteration order of the two Python loops. -/
def constraintGraphEdges (constraints : List (List Var)) : List (ℕ × ℕ) :=
  (List.range constraints.length).flatMap (fun ci =>
    ((List.range constraints.length).filter (fun i => decide (ci < i))).filterMap (fun i =>
      if (constraints.getD i []).any (fun v => (constraints.getD ci []).contains v)
      then some (i, ci) else none))

/-- The constraint-adjacency graph: only groups overlapping some other
group become nodes (`add_edge` is the sole node-creating call). -/
def constraintGraph (constraints : List (List Var)) : NxGraph :=
  (constraintGraphEdges constraints).foldl (fun g e => g.addEdge e.1 e.2) ⟨[], []⟩

/-- `RandomConstraintDecomposer.init`: the capacity check against the
problem size, then the one-time constraint-graph construction. -/
def rcInit (size : ℕ) (constraints : List (List Var)) (problemSize : ℕ) :
    Except PyErr NxGraph :=
  if problemSize < size then .error .valueError
  else .ok (constraintGraph constraints)

/-- The `for _, ci in nx.bfs_edges(CG, n)` loop of
`RandomConstraintDecomposer.next`.  `vars.add(proposed)` adds the
Python *list* `proposed` to a set of vars; a list is unhashable, so
that statement raises `TypeError` whenever its guard holds, and the
running set `vars` never actually grows.  The Python set `variables` is
represented as a duplicate-free list. -/
def rcLoop (size : ℕ) (constraints : List (List Var)) :
    List ℕ → List Var → Except PyErr (List Var)
  | [], vars => .ok vars
  | ci :: rest, vars =>
    let proposed := (constraints.getD ci []).filter (fun v => !(vars.contains v))
    if proposed.length + vars.length ≤ size then .error .typeError
    else if vars.length = size then .ok vars
    else rcLoop size constraints rest vars

/-- `RandomConstraintDecomposer.next`.  `random.choice(range(len(CG)))`
raises `IndexError` on an empty range and is determinized by `seed`
(every residue `seed % len(CG)` is a possible draw; the graph is assumed
index-labeled, so a draw that is not a node makes `nx.bfs_edges` fail). -/
def rcNext (size : ℕ) (constraints : List (List Var)) (b : BQM)
    (sample : Var → ℚ) (seed : ℕ) : Except PyErr BQM :=
  let CG := constraintGraph constraints
  if CG.nodes.length = 0 then .error .indexError
  else
    let n := seed % CG.nodes.length
    if size < (constraints.getD n []).length then .error .notImplementedError
    else if !(CG.nodes.contains n) then .error .nodeNotFound
    else
      match rcLoop size constraints (bfsRun CG (CG.nodes.length + 1) [n] [n])
          (constraints.getD n []).dedup with
      | .error e => .error e
      | .ok vars => bqmInducedBy b vars sample

/-! ### Helper lemmas -/

/-- The energy traversal selects at most `size` variables. -/
theorem energyTraverse_length_le (pr : List Var) (vis : Finset Var) (k : ℕ) :
    (energyTraverse pr vis k).length ≤ k := by
  simpa [energyTraverse, List.length_take] using Nat.min_le_left k _

/-- The energy traversal selects only unvisited variables of the ranked
order. -/
theorem mem_energyTraverse (pr : List Var) (vis : Finset Var) (k : ℕ) (v : Var)
    (hv : v ∈ energyTraverse pr vis k) : v ∈ pr ∧ v ∉ vis := by
  have h1 : v ∈ pr.filter (fun v => decide (v ∉ vis)) := List.mem_of_mem_take hv
  have h2 := List.mem_filter.mp h1
  exact ⟨h2.1, by simpa using h2.2⟩

/-- Adding a list of selected variables to a finite set grows its
cardinality by at most the list length. -/
theorem card_union_toFinset_le (s : Finset Var) (l : List Var) :
    (s ∪ l.toFinset).card ≤ s.card + l.length :=
  Nat.le_trans (Finset.card_union_le s l.toFinset)
    (Nat.add_le_add_left l.toFinset_card_le s.card)

/-- Whether the per-call rolling rewind fires is decided exactly by the
condition `len(_unrolled_vars) >= rolling_history * len(bqm)`. -/
theorem eidNext_rewound_iff (cfg : EIDConfig) (n : ℕ)
    (tf : Finset Var → ℕ → List Var) (u : Finset Var)
    (hroll : cfg.rolling = true) :
    (eidNext cfg n tf u).rewound = true ↔
      cfg.rollingHistory * (n : ℚ) ≤ (u.card : ℚ) := by
  by_cases hc : cfg.rollingHistory * (n : ℚ) ≤ (u.card : ℚ) <;>
    simp [eidNext, hroll, hc] <;> split <;> simp_all

/-- Per-call cardinality bound on `_unrolled_vars` (energy traversal,
rolling enabled): after any call the set holds at most
`max 0 (⌈h·n⌉ - 1) + size` variables. -/
theorem eidNext_card_le (cfg : EIDConfig) (n : ℕ) (priority : List Var)
    (u : Finset Var) (hroll : cfg.rolling = true) :
    (((eidNext cfg n (energyTraverse priority) u).unrolledAfter.card : ℤ))
      ≤ max 0 (⌈cfg.rollingHistory * (n : ℚ)⌉ - 1) + cfg.size := by
  have hsize0 : (0 : ℤ) ≤ max 0 (⌈cfg.rollingHistory * (n : ℚ)⌉ - 1) := le_max_left 0 _
  by_cases hc : cfg.rollingHistory * (n : ℚ) ≤ (u.card : ℚ)
  · by_cases hs : cfg.silentRewind = true
    · have hafter : (eidNext cfg n (energyTraverse priority) u).unrolledAfter
          = (∅ : Finset Var) ∪ (energyTraverse priority ∅ cfg.size).toFinset := by
        simp [eidNext, hroll, hc, hs]
      have hcard : ((eidNext cfg n (energyTraverse priority) u).unrolledAfter.card)
          ≤ cfg.size := by
        rw [hafter]
        calc ((∅ : Finset Var) ∪ (energyTraverse priority ∅ cfg.size).toFinset).card
            ≤ (∅ : Finset Var).card + (energyTraverse priority ∅ cfg.size).length :=
              card_union_toFinset_le _ _
          _ ≤ 0 + cfg.size := by
              simpa using energyTraverse_length_le priority ∅ cfg.size
          _ = cfg.size := Nat.zero_add _
      omega
    · have hs2 : cfg.silentRewind = false := by
        cases h : cfg.silentRewind
        · rfl
        · exact absurd h hs
      have hcard : (eidNext cfg n (energyTraverse priority) u).unrolledAfter = ∅ := by
        simp [eidNext, hroll, hc, hs2]
      rw [hcard]
      simp only [Finset.card_empty, Int.natCast_zero]
      omega
  · have hlt : ((u.card : ℤ)) ≤ ⌈cfg.rollingHistory * (n : ℚ)⌉ - 1 := by
      have h1 : ((u.card : ℚ)) < cfg.rollingHistory * (n : ℚ) := lt_of_not_ge hc
      have h2 : ((u.card : ℤ) : ℚ) < cfg.rollingHistory * (n : ℚ) := by push_cast; push_cast at h1; exact h1
      have h3 : (u.card : ℤ) < ⌈cfg.rollingHistory * (n : ℚ)⌉ := Int.lt_ceil.mpr h2
      omega
    have hafter : (eidNext cfg n (energyTraverse priority) u).unrolledAfter
        = u ∪ (energyTraverse priority u cfg.size).toFinset := by
      simp [eidNext, hroll, hc]
    have hcard : ((eidNext cfg n (energyTraverse priority) u).unrolledAfter.card)
        ≤ u.card + cfg.size := by
      rw [hafter]
      exact Nat.le_trans (card_union_toFinset_le u _)
        (Nat.add_le_add_left (energyTraverse_length_le priority u cfg.size) u.card)
    have hmax : (u.card : ℤ) ≤ max 0 (⌈cfg.rollingHistory * (n : ℚ)⌉ - 1) :=
      le_trans hlt (le_max_right 0 _)
    omega

/-! ### Claim C10 -/

/-- C10: with rolling enabled, `rolling_history = 0` and
`silent_rewind = false`, the rewind condition
`len(_unrolled_vars) >= 0 * len(bqm)` holds on every select call
(including the first), so every call raises the end-of-stream signal and
no subproblem variables are ever returned. -/
theorem eid_zero_history_every_call_signals (cfg : EIDConfig) (n : ℕ)
    (tf : Finset Var → ℕ → List Var) (u : Finset Var)
    (hroll : cfg.rolling = true) (hh : cfg.rollingHistory = 0)
    (hsil : cfg.silentRewind = false) :
    (eidNext cfg n tf u).rewound = true
    ∧ (eidNext cfg n tf u).signal = true
    ∧ (eidNext cfg n tf u).nextVars = [] := by
  have hc : cfg.rollingHistory * (n : ℚ) ≤ (u.card : ℚ) := by
    rw [hh, zero_mul]
    positivity
  simp [eidNext, hroll, hsil, hc]

/-- C10 witness. -/
theorem eid_zero_history_every_call_signals_witness :
    (eidNext ⟨2, true, 0, false⟩ 3 (energyTraverse [0, 1, 2]) {0}).rewound = true
    ∧ (eidNext ⟨2, true, 0, false⟩ 3 (energyTraverse [0, 1, 2]) {0}).signal = true
    ∧ (eidNext ⟨2, true, 0, false⟩ 3 (energyTraverse [0, 1, 2]) {0}).nextVars = [] :=
  eid_zero_history_every_call_signals _ 3 _ {0} rfl rfl rfl

/-! ### Claim C8 -/

/-- C8 counterexample: `rolling_history = -1` lies outside [0, 1], yet
with rolling disabled the constructor accepts it without error, because
the Python check parses as `(rolling and h < 0.0) or (h > 1.0)`. -/
theorem eid_init_accepts_negative_history_cex :
    eidInit 5 false (-1) true "energy"
      = .ok { size := 5, rolling := false, rollingHistory := -1
              silentRewind := true } := by
  rfl

/-- C8 amended: with a valid traversal name, construction fails exactly
when rolling is enabled and the fraction is negative, or when the
fraction exceeds 1; in particular a negative fraction with rolling
disabled is accepted. -/
theorem eid_init_validation (size : ℕ) (rolling : Bool) (h : ℚ) (sil : Bool) :
    eidInit size rolling h sil "energy" = .error .valueError
      ↔ ((rolling = true ∧ h < 0) ∨ 1 < h) := by
  by_cases h0 : h < 0 <;> by_cases h1 : 1 < h <;>
    cases rolling <;> simp [eidInit, h0, h1]

/-! ### Claim C1 -/

/-- C1: evaluating `RandomConstraintDecomposer.next` on a 2-variable
problem with constraint groups {0} and {0, 1} and target size 2 (under
both possible random seed draws): as soon as the traversal merges a
second whole group, the statement `variables.add(proposed)` adds a
Python list to a set of variables and raises `TypeError`, so the claimed
union of whole constraint groups is never returned. -/
theorem rc_select_add_list_raises :
    rcNext 2 [[0], [0, 1]] ⟨[0, 1], [(0, 1), (1, -2)], [((0, 1), 3)]⟩ (fun _ => 1) 0
      = .error .typeError
    ∧ rcNext 2 [[0], [0, 1]] ⟨[0, 1], [(0, 1), (1, -2)], [((0, 1), 3)]⟩ (fun _ => 1) 1
      = .error .typeError := ⟨rfl, rfl⟩

/-! ### Claim C7 -/

/-- C7 counterexample: RandomConstraintDecomposer asked for size 3 on a
2-variable problem: the select call does not raise the capacity error —
under either possible random draw it fails with the unrelated
`TypeError` of the list-into-set defect, never with the capacity
`ValueError`, which the setup call `init` raises instead. -/
theorem rc_capacity_not_at_select_cex :
    (2 : ℕ) < 3
    ∧ rcNext 3 [[0], [0, 1]] ⟨[0, 1], [(0, 1), (1, -2)], [((0, 1), 3)]⟩ (fun _ => 1) 0
        = .error .typeError
    ∧ rcNext 3 [[0], [0, 1]] ⟨[0, 1], [(0, 1), (1, -2)], [((0, 1), 3)]⟩ (fun _ => 1) 1
        = .error .typeError
    ∧ rcInit 3 [[0], [0, 1]] 2 = .error .valueError :=
  ⟨by decide, rfl, rfl, rfl⟩

/-- C7 amended: when the requested size exceeds the problem size,
RandomSubproblemDecomposer raises the capacity `ValueError` in its select
call, while RandomConstraintDecomposer raises it in its one-time setup
call `init` (and exactly then), not in select. -/
theorem capacity_error_sites (size : ℕ) (b : BQM) (sample : Var → ℚ)
    (seed : ℕ) (cs : List (List Var)) (m : ℕ) :
    (b.vars.length < size → randomSubNext size b sample seed = .error .valueError)
    ∧ (rcInit size cs m = .error .valueError ↔ m < size) := by
  constructor
  · intro hlt
    simp [randomSubNext, hlt]
  · unfold rcInit
    split
    · simp_all
    · simp_all

/-- The induced-subproblem builder succeeds on every nonempty selection
of problem variables. -/
theorem bqmInducedBy_isOk (b : BQM) (sel : List Var) (sample : Var → ℚ)
    (hne : sel ≠ []) (hsub : ∀ v ∈ sel, v ∈ b.vars) :
    (bqmInducedBy b sel sample).isOk = true := by
  have hnex : ¬ ∃ x ∈ sel, x ∉ b.vars := by
    push_neg
    exact hsub
  simp [bqmInducedBy, List.isEmpty_iff, hne, hnex, Except.isOk, Except.toBool]

/-! ### Claim C2 -/

/-- C2 counterexample: with 4 variables, `rolling_history = 1/2` and
`size = 3` (energy traversal, unchanged problem and sample), the first
call performs no rewind yet leaves 3 variables in the visited set —
already more than `⌈(1/2)·4⌉ = 2` — so the claimed bound is exceeded
before any rewind takes place. -/
theorem eid_rolling_bound_cex :
    (eidNext ⟨3, true, 1/2, true⟩ 4 (energyTraverse [0, 1, 2, 3]) ∅).rewound = false
    ∧ (eidIter ⟨3, true, 1/2, true⟩ 4 (energyTraverse [0, 1, 2, 3]) 1).card = 3
    ∧ ⌈((1 : ℚ)/2) * ((4 : ℕ) : ℚ)⌉ = 2 := by
  have h : ¬ ((1 : ℚ)/2 * ((4 : ℕ) : ℚ) ≤ (((∅ : Finset Var).card : ℕ) : ℚ)) := by
    norm_num
  refine ⟨by simp [eidNext, h], ?_, by norm_num⟩
  rw [eidIter, eidIter]
  simp [eidNext, h]
  decide

/-- C2 amended: with rolling enabled, across any number of successive
calls on an unchanged problem and sample (energy traversal), a rewind
occurs exactly on the calls entered with at least
`rolling_history * len(bqm)` visited variables, and after every call the
visited set holds at most `max 0 (⌈h·n⌉ - 1) + size` variables — i.e. it
can overshoot `⌈h·n⌉` by up to `size - 1` entries before the next call's
rewind resets it. -/
theorem eid_rolling_rewind_iff_and_bound (cfg : EIDConfig) (n : ℕ)
    (priority : List Var) (hroll : cfg.rolling = true) (k : ℕ) :
    ((eidNext cfg n (energyTraverse priority)
        (eidIter cfg n (energyTraverse priority) k)).rewound = true
      ↔ cfg.rollingHistory * (n : ℚ)
          ≤ ((eidIter cfg n (energyTraverse priority) k).card : ℚ))
    ∧ ((eidIter cfg n (energyTraverse priority) (k + 1)).card : ℤ)
        ≤ max 0 (⌈cfg.rollingHistory * (n : ℚ)⌉ - 1) + cfg.size := by
  refine ⟨eidNext_rewound_iff cfg n _ _ hroll, ?_⟩
  rw [eidIter]
  exact eidNext_card_le cfg n priority _ hroll

/-- C2 witness. -/
theorem eid_rolling_rewind_iff_and_bound_witness :
    ((eidNext ⟨1, true, 1/2, true⟩ 4 (energyTraverse [0, 1, 2, 3])
        (eidIter ⟨1, true, 1/2, true⟩ 4 (energyTraverse [0, 1, 2, 3]) 2)).rewound = true
      ↔ (1 : ℚ)/2 * ((4 : ℕ) : ℚ)
          ≤ ((eidIter ⟨1, true, 1/2, true⟩ 4 (energyTraverse [0, 1, 2, 3]) 2).card : ℚ))
    ∧ ((eidIter ⟨1, true, 1/2, true⟩ 4 (energyTraverse [0, 1, 2, 3]) 3).card : ℤ)
        ≤ max 0 (⌈(1 : ℚ)/2 * ((4 : ℕ) : ℚ)⌉ - 1) + 1 :=
  eid_rolling_rewind_iff_and_bound ⟨1, true, 1/2, true⟩ 4 [0, 1, 2, 3] rfl 2

/-! ### Claim C3 -/

/-- C3 counterexample: with `rolling_history = 0` — a configuration the
constructor accepts with rolling enabled — the rewind condition holds on
the triggering call, which raises end-of-stream; but the immediately
following call raises end-of-stream again instead of succeeding
normally. -/
theorem eid_rewind_following_call_fails_cex :
    eidInit 1 true 0 false "energy" = .ok ⟨1, true, 0, false⟩
    ∧ (eidNext ⟨1, true, 0, false⟩ 1 (energyTraverse [0]) ∅).signal = true
    ∧ (eidNext ⟨1, true, 0, false⟩ 1 (energyTraverse [0])
        (eidNext ⟨1, true, 0, false⟩ 1 (energyTraverse [0]) ∅).unrolledAfter).signal
        = true := by
  have h : ((0 : ℚ) * ((1 : ℕ) : ℚ) ≤ (((∅ : Finset Var).card : ℕ) : ℚ)) := by
    norm_num
  exact ⟨rfl, by simp [eidNext, h], by simp [eidNext, h]⟩

/-- C3 amended: with `silent_rewind = false`, rolling enabled, and a
positive rewind threshold `rolling_history * len(bqm) > 0`, the call on
which the rewind condition holds raises end-of-stream with the visited
set already cleared, and the immediately following call succeeds
normally: it raises nothing, selects from the freshly reset (empty)
visited set, and the induced subproblem is built successfully. -/
theorem eid_rewind_signals_then_recovers (cfg : EIDConfig) (n : ℕ)
    (priority : List Var) (b : BQM) (sample : Var → ℚ) (u : Finset Var)
    (hroll : cfg.rolling = true) (hsil : cfg.silentRewind = false)
    (hpos : 0 < cfg.rollingHistory * (n : ℚ))
    (htrig : cfg.rollingHistory * (n : ℚ) ≤ (u.card : ℚ))
    (hsz : 1 ≤ cfg.size) (hpr : priority ≠ [])
    (hsub : ∀ v ∈ priority, v ∈ b.vars) :
    (eidNext cfg n (energyTraverse priority) u).signal = true
    ∧ (eidNext cfg n (energyTraverse priority) u).unrolledAfter = ∅
    ∧ (eidNext cfg n (energyTraverse priority) ∅).signal = false
    ∧ (eidNext cfg n (energyTraverse priority) ∅).nextVars = priority.take cfg.size
    ∧ (bqmInducedBy b (eidNext cfg n (energyTraverse priority) ∅).nextVars sample).isOk
        = true := by
  have h0 : ¬ (cfg.rollingHistory * (n : ℚ) ≤ 0) := not_le.mpr hpos
  have hsel : (eidNext cfg n (energyTraverse priority) ∅).nextVars
      = priority.take cfg.size := by
    simp [eidNext, h0, energyTraverse]
  refine ⟨by simp [eidNext, hroll, hsil, htrig], by simp [eidNext, hroll, hsil, htrig],
    by simp [eidNext, h0], hsel, ?_⟩
  rw [hsel]
  refine bqmInducedBy_isOk b _ sample ?_ ?_
  · intro hc
    rcases (List.take_eq_nil_iff).mp hc with h1 | h1
    · omega
    · exact hpr h1
  · intro v hv
    exact hsub v (List.take_subset _ _ hv)

/-- C3 witness. -/
theorem eid_rewind_signals_then_recovers_witness :
    (eidNext ⟨1, true, 1, false⟩ 2 (energyTraverse [5, 7]) {5, 7}).signal = true
    ∧ (eidNext ⟨1, true, 1, false⟩ 2 (energyTraverse [5, 7]) {5, 7}).unrolledAfter = ∅
    ∧ (eidNext ⟨1, true, 1, false⟩ 2 (energyTraverse [5, 7]) ∅).signal = false
    ∧ (eidNext ⟨1, true, 1, false⟩ 2 (energyTraverse [5, 7]) ∅).nextVars = [5, 7].take 1
    ∧ (bqmInducedBy ⟨[5, 7], [], []⟩
        (eidNext ⟨1, true, 1, false⟩ 2 (energyTraverse [5, 7]) ∅).nextVars
        (fun _ => 0)).isOk = true := by
  have h5 : ({5, 7} : Finset ℕ).card = 2 := by decide
  exact eid_rewind_signals_then_recovers ⟨1, true, 1, false⟩ 2 [5, 7] ⟨[5, 7], [], []⟩
    (fun _ => 0) {5, 7} rfl rfl (by norm_num) (by rw [h5]; norm_num) (by decide)
    (by decide) (by decide)

/-- C7 witness. -/
theorem capacity_error_sites_witness :
    randomSubNext 3 ⟨[0, 1], [], []⟩ (fun _ => 0) 0 = .error .valueError
    ∧ (rcInit 3 [[0]] 2 = .error .valueError ↔ 2 < 3) :=
  ⟨(capacity_error_sites 3 ⟨[0, 1], [], []⟩ (fun _ => 0) 0 [[0]] 2).1 (by decide),
   (capacity_error_sites 3 ⟨[0, 1], [], []⟩ (fun _ => 0) 0 [[0]] 2).2⟩

/-! ### Claim C6 -/

/-- C6: over the fixed tile sequence computed at setup: with looping
disabled the first `T` calls return the tiles in setup order — pairwise
distinct tiles when the sequence has no duplicates — and the `(T+1)`-th
call signals end-of-stream; with looping enabled the `(T+1)`-th call
returns the first tile again. -/
theorem tiling_tile_sequence (tiles : List Tile) (hne : tiles ≠ [])
    (hnd : tiles.Nodup) :
    (∀ k (hk : k < tiles.length),
        tilingNextTile tiles false k = .ok (tiles.get ⟨k, hk⟩))
    ∧ (∀ k1 k2 (hk1 : k1 < tiles.length) (hk2 : k2 < tiles.length), k1 ≠ k2 →
        tilingNextTile tiles false k1 ≠ tilingNextTile tiles false k2)
    ∧ tilingNextTile tiles false tiles.length = .error .stopIteration
    ∧ tilingNextTile tiles true tiles.length = tilingNextTile tiles false 0 := by
  have hstep : ∀ k (hk : k < tiles.length),
      tilingNextTile tiles false k = .ok (tiles.get ⟨k, hk⟩) := by
    intro k hk
    simp [tilingNextTile, hk]
  refine ⟨hstep, ?_, ?_, ?_⟩
  · intro k1 k2 hk1 hk2 hne12 heq
    rw [hstep k1 hk1, hstep k2 hk2] at heq
    have hget : tiles.get ⟨k1, hk1⟩ = tiles.get ⟨k2, hk2⟩ := by
      injection heq
    exact hne12 (Fin.mk.injEq .. ▸ (hnd.get_inj_iff.mp hget))
  · simp [tilingNextTile]
  · cases tiles with
    | nil => exact absurd rfl hne
    | cons a t => simp [tilingNextTile, Nat.mod_self]

/-- C6 witness. -/
theorem tiling_tile_sequence_witness :
    tilingNextTile [⟨(0, 0), [(0, [0])]⟩, ⟨(0, 1), [(1, [1])]⟩] false 2
      = .error .stopIteration
    ∧ tilingNextTile [⟨(0, 0), [(0, [0])]⟩, ⟨(0, 1), [(1, [1])]⟩] true 2
      = tilingNextTile [⟨(0, 0), [(0, [0])]⟩, ⟨(0, 1), [(1, [1])]⟩] false 0 :=
  ⟨(tiling_tile_sequence [⟨(0, 0), [(0, [0])]⟩, ⟨(0, 1), [(1, [1])]⟩]
      (by decide) (by decide)).2.2.1,
   (tiling_tile_sequence [⟨(0, 0), [(0, [0])]⟩, ⟨(0, 1), [(1, [1])]⟩]
      (by decide) (by decide)).2.2.2⟩

/-! ### Claim C9 -/

/-- Nodes of an `add_edge` call are the previous nodes plus the two
endpoints. -/
theorem mem_addEdge_nodes (g : NxGraph) (a b2 v : Var)
    (hv : v ∈ (g.addEdge a b2).nodes) : v ∈ g.nodes ∨ v = a ∨ v = b2 := by
  simp only [NxGraph.addEdge] at hv
  split at hv <;> split at hv <;> simp_all <;> tauto

/-- Nodes accumulated by folding `add_edge` over an edge list are the
initial nodes plus endpoints of listed edges. -/
theorem mem_nodes_foldl_addEdge (es : List (ℕ × ℕ)) (g : NxGraph) (v : Var)
    (hv : v ∈ (es.foldl (fun g e => g.addEdge e.1 e.2) g).nodes) :
    v ∈ g.nodes ∨ ∃ e ∈ es, v = e.1 ∨ v = e.2 := by
  induction es generalizing g with
  | nil => exact Or.inl (by simpa using hv)
  | cons e rest ih =>
    rcases ih (g.addEdge e.1 e.2) (by simpa using hv) with h | ⟨e2, he2, hor⟩
    · rcases mem_addEdge_nodes g e.1 e.2 v h with h1 | h1
      · exact Or.inl h1
      · exact Or.inr ⟨e, List.mem_cons_self e rest, h1⟩
    · exact Or.inr ⟨e2, List.mem_cons_of_mem e he2, hor⟩

/-- Every edge of the constraint graph joins a later group index to an
earlier one, and the two groups share a variable. -/
theorem constraintGraphEdges_spec (cs : List (List Var)) (e : ℕ × ℕ)
    (he : e ∈ constraintGraphEdges cs) :
    e.2 < e.1 ∧ e.1 < cs.length
    ∧ ∃ w, w ∈ cs.getD e.1 [] ∧ w ∈ cs.getD e.2 [] := by
  simp only [constraintGraphEdges, List.mem_flatMap, List.mem_filterMap,
    List.mem_filter, List.mem_range, decide_eq_true_eq] at he
  rcases he with ⟨ci, hci, i, ⟨hi, hlt⟩, hif⟩
  split at hif
  · next hc =>
    cases hif
    obtain ⟨w, hw1, hw2⟩ : ∃ w, w ∈ cs.getD i [] ∧ w ∈ cs.getD ci [] := by
      simpa [List.any_eq_true, List.getD] using hc
    exact ⟨hlt, hi, w, hw1, hw2⟩
  · exact absurd hif (by simp)

/-- C9: the constraint graph has a node for a group only if that group
shares a variable with some other group; consequently, with pairwise
disjoint constraint groups, the graph is empty and every select call
fails at the random seed-choice step with `IndexError` instead of
returning a subproblem. -/
theorem rc_disjoint_groups_select_fails (cs : List (List Var))
    (hdisj : cs.Pairwise (fun g1 g2 => ∀ v ∈ g1, v ∉ g2)) :
    (∀ cs2 : List (List Var), ∀ gi ∈ (constraintGraph cs2).nodes,
        ∃ gj w, gj ≠ gi ∧ w ∈ cs2.getD gi [] ∧ w ∈ cs2.getD gj [])
    ∧ (constraintGraph cs).nodes = []
    ∧ ∀ size (b : BQM) (sample : Var → ℚ) (seed : ℕ),
        rcNext size cs b sample seed = .error .indexError := by
  have hnode : ∀ cs2 : List (List Var), ∀ gi ∈ (constraintGraph cs2).nodes,
      ∃ gj w, gj ≠ gi ∧ w ∈ cs2.getD gi [] ∧ w ∈ cs2.getD gj [] := by
    intro cs2 gi hgi
    rcases mem_nodes_foldl_addEdge _ _ _ hgi with h | ⟨e, he, hor⟩
    · simp at h
    · obtain ⟨hlt, hi, w, hw1, hw2⟩ := constraintGraphEdges_spec cs2 e he
      rcases hor with h1 | h1 <;> subst h1
      · exact ⟨e.2, w, Nat.ne_of_lt hlt, hw1, hw2⟩
      · exact ⟨e.1, w, (Nat.ne_of_lt hlt).symm, hw2, hw1⟩
  have hedges : constraintGraphEdges cs = [] := by
    by_contra hne
    obtain ⟨e, he⟩ := List.exists_mem_of_ne_nil _ hne
    obtain ⟨hlt, hi, w, hw1, hw2⟩ := constraintGraphEdges_spec cs e he
    have h21 : e.2 < cs.length := Nat.lt_trans hlt hi
    have hR := List.pairwise_iff_getElem.mp hdisj e.2 e.1 h21 hi hlt
    rw [List.getD_eq_getElem _ _ hi] at hw1
    rw [List.getD_eq_getElem _ _ h21] at hw2
    exact hR w hw2 hw1
  have hnodes : (constraintGraph cs).nodes = [] := by
    rw [constraintGraph, hedges]
    rfl
  refine ⟨hnode, hnodes, ?_⟩
  intro size b sample seed
  simp [rcNext, hnodes]

/-- C9 witness. -/
theorem rc_disjoint_groups_select_fails_witness :
    (constraintGraph [[0], [1]]).nodes = []
    ∧ rcNext 1 [[0], [1]] ⟨[0, 1], [], []⟩ (fun _ => 0) 7 = .error .indexError :=
  ⟨(rc_disjoint_groups_select_fails [[0], [1]] (by decide)).2.1,
   (rc_disjoint_groups_select_fails [[0], [1]] (by decide)).2.2 1 ⟨[0, 1], [], []⟩
     (fun _ => 0) 7⟩

/-! ### Claim C5 -/

/-- C5: when the configured size exceeds the problem's variable count, a
select call raises no error: the traversal — although invoked with
`size=self.size` — returns exactly what it would return with the size
clamped to the problem size, the selected subset holds at most
`len(bqm)` variables, and the induced subproblem is built successfully.
Stated for the default energy traversal over the full ranking produced
with the default `min_gain` (every problem variable ranked); the visited
set is arbitrary when rolling is active with a legal history fraction,
and empty otherwise. -/
theorem eid_oversized_select_clamped (cfg : EIDConfig) (b : BQM)
    (sample : Var → ℚ) (priority : List Var) (u : Finset Var)
    (hsize : b.vars.length < cfg.size) (hsil : cfg.silentRewind = true)
    (hnd : priority.Nodup) (hlen : priority.length = b.vars.length)
    (hsub : ∀ v ∈ priority, v ∈ b.vars) (hn : b.vars ≠ [])
    (hu : u = ∅ ∨ (cfg.rolling = true ∧ cfg.rollingHistory ≤ 1)) :
    (eidNext cfg b.vars.length (energyTraverse priority) u).signal = false
    ∧ (eidNext cfg b.vars.length (energyTraverse priority) u).nextVars.length
        ≤ b.vars.length
    ∧ (∀ w : Finset Var, energyTraverse priority w cfg.size
        = energyTraverse priority w (min cfg.size b.vars.length))
    ∧ (bqmInducedBy b
        (eidNext cfg b.vars.length (energyTraverse priority) u).nextVars
        sample).isOk = true := by
  have hnpos : 0 < priority.length := by
    rw [hlen]
    exact List.length_pos.mpr hn
  have hfl : ∀ w : Finset Var,
      (priority.filter (fun v => decide (v ∉ w))).length ≤ b.vars.length :=
    fun w => le_trans (List.length_filter_le _ _) (le_of_eq hlen)
  have hclamp : ∀ w : Finset Var, energyTraverse priority w cfg.size
      = energyTraverse priority w (min cfg.size b.vars.length) := by
    intro w
    rw [Nat.min_eq_right (Nat.le_of_lt hsize)]
    unfold energyTraverse
    rw [List.take_of_length_le (le_trans (hfl w) (Nat.le_of_lt hsize)),
      List.take_of_length_le (hfl w)]
  have hsig : (eidNext cfg b.vars.length (energyTraverse priority) u).signal
      = false := by
    simp [eidNext, hsil]
  have hne0 : energyTraverse priority (∅ : Finset Var) cfg.size ≠ [] := by
    unfold energyTraverse
    rw [Ne, List.take_eq_nil_iff]
    push_neg
    refine ⟨by omega, ?_⟩
    rw [List.filter_eq_self.mpr (by intro a ha; simp)]
    exact List.length_pos.mp hnpos
  have hmain : ∃ w : Finset Var,
      (eidNext cfg b.vars.length (energyTraverse priority) u).nextVars
        = energyTraverse priority w cfg.size
      ∧ energyTraverse priority w cfg.size ≠ [] := by
    by_cases hb : (cfg.rolling && decide (cfg.rollingHistory
        * ((b.vars.length : ℕ) : ℚ) ≤ ((u.card : ℕ) : ℚ))) = true
    · refine ⟨∅, ?_, hne0⟩
      simp [eidNext, hsil, hb]
    · rw [Bool.not_eq_true] at hb
      refine ⟨u, by simp [eidNext, hsil, hb], ?_⟩
      rcases hu with hu0 | ⟨hroll2, hh1⟩
      · rw [hu0]
        exact hne0
      · rw [hroll2, Bool.true_and, decide_eq_false_iff_not] at hb
        have hlt2 : ((u.card : ℕ) : ℚ)
            < cfg.rollingHistory * ((b.vars.length : ℕ) : ℚ) := lt_of_not_ge hb
        have hle : cfg.rollingHistory * ((b.vars.length : ℕ) : ℚ)
            ≤ ((b.vars.length : ℕ) : ℚ) := by
          calc cfg.rollingHistory * ((b.vars.length : ℕ) : ℚ)
              ≤ 1 * ((b.vars.length : ℕ) : ℚ) :=
                mul_le_mul_of_nonneg_right hh1 (by positivity)
            _ = ((b.vars.length : ℕ) : ℚ) := one_mul _
        have hcard : u.card < b.vars.length := by
          exact_mod_cast lt_of_lt_of_le hlt2 hle
        have hfne : priority.filter (fun v => decide (v ∉ u)) ≠ [] := by
          intro hnil
          have hall : ∀ v ∈ priority, v ∈ u := by
            intro v hv
            have h2 := List.filter_eq_nil_iff.mp hnil v hv
            simpa using h2
          have hsubf : priority.toFinset ⊆ u :=
            fun x hx => hall x (List.mem_toFinset.mp hx)
          have hcard2 : priority.toFinset.card ≤ u.card := Finset.card_le_card hsubf
          rw [List.toFinset_card_of_nodup hnd, hlen] at hcard2
          omega
        unfold energyTraverse
        rw [Ne, List.take_eq_nil_iff]
        push_neg
        exact ⟨by omega, hfne⟩
  obtain ⟨w, hw, hwne⟩ := hmain
  refine ⟨hsig, ?_, hclamp, ?_⟩
  · rw [hw]
    have h2 := List.length_filter_le (fun v => decide (v ∉ w)) priority
    simp only [energyTraverse, List.length_take]
    omega
  · rw [hw]
    refine bqmInducedBy_isOk b _ sample hwne ?_
    intro v hv
    exact hsub v (mem_energyTraverse priority w cfg.size v hv).1

/-- C5 witness. -/
theorem eid_oversized_select_clamped_witness :
    (eidNext ⟨3, true, 1, true⟩ 2 (energyTraverse [1, 0]) ∅).signal = false
    ∧ (eidNext ⟨3, true, 1, true⟩ 2 (energyTraverse [1, 0]) ∅).nextVars.length ≤ 2
    ∧ (∀ w : Finset Var, energyTraverse [1, 0] w 3 = energyTraverse [1, 0] w (min 3 2))
    ∧ (bqmInducedBy ⟨[0, 1], [(0, 1)], [((0, 1), 2)]⟩
        (eidNext ⟨3, true, 1, true⟩ 2 (energyTraverse [1, 0]) ∅).nextVars
        (fun _ => 1)).isOk = true :=
  eid_oversized_select_clamped ⟨3, true, 1, true⟩ ⟨[0, 1], [(0, 1)], [((0, 1), 2)]⟩
    (fun _ => 1) [1, 0] ∅ (by decide) rfl (by decide) rfl (by decide) (by decide)
    (Or.inl rfl)

/-! ### Claim C4 -/

/-- Everything adjacency-reachable lies in the nodes of a well-formed
graph. -/
theorem NxGraph.WF.adj_subset {g : NxGraph} (h : g.WF) {v u : Var}
    (hu : u ∈ g.adj v) : u ∈ g.nodes := by
  unfold NxGraph.adj at hu
  cases hfind : g.adjList.find? (fun p => p.1 == v) with
  | none =>
    rw [hfind] at hu
    simp at hu
  | some p =>
    rw [hfind] at hu
    exact h p (List.mem_of_find?_eq_some hfind) u hu

/-- Removing nodes preserves well-formedness. -/
theorem NxGraph.WF.removeNodes {g : NxGraph} (h : g.WF) (s : Finset Var) :
    (g.removeNodes s).WF := by
  intro p hp u hu
  simp only [NxGraph.removeNodes, List.mem_map, List.mem_filter] at hp
  obtain ⟨q, ⟨hq, hqs⟩, rfl⟩ := hp
  simp only [List.mem_filter] at hu
  simp only [NxGraph.removeNodes, List.mem_filter]
  exact ⟨h q hq u hu.1, hu.2⟩

/-- The nodes surviving a removal are the original nodes. -/
theorem NxGraph.mem_removeNodes {g : NxGraph} {s : Finset Var} {v : Var}
    (hv : v ∈ (g.removeNodes s).nodes) : v ∈ g.nodes ∧ v ∉ s := by
  simp only [NxGraph.removeNodes, List.mem_filter, decide_eq_true_eq] at hv
  exact hv

/-- Every node discovered by the BFS loop lies on some adjacency list. -/
theorem mem_bfsRun (g : NxGraph) :
    ∀ (fuel : ℕ) (q seen : List Var) (v : Var),
    v ∈ bfsRun g fuel q seen → ∃ u, v ∈ g.adj u := by
  intro fuel
  induction fuel with
  | zero =>
    intro q seen v hv
    simp [bfsRun] at hv
  | succ f ih =>
    intro q seen v hv
    cases q with
    | nil => simp [bfsRun] at hv
    | cons u rest =>
      simp only [bfsRun, List.mem_append] at hv
      rcases hv with h | h
      · exact ⟨u, List.mem_of_mem_filter h⟩
      · exact ih _ _ v h

/-- `_bfs_nodes` returns at most `size` nodes. -/
theorem nxBfsNodes_length_le (g : NxGraph) (s : Var) (k : ℕ) (p : Var → ℚ) :
    (nxBfsNodes g s k p).length ≤ k := by
  unfold nxBfsNodes
  split
  · simp
  · next h =>
    simp only [List.length_cons, List.length_take]
    omega

/-- `_bfs_nodes` returns only the source and graph nodes. -/
theorem mem_nxBfsNodes {g : NxGraph} (hwf : g.WF) (s : Var) (k : ℕ)
    (p : Var → ℚ) (v : Var) (hv : v ∈ nxBfsNodes g s k p) :
    v = s ∨ v ∈ g.nodes := by
  unfold nxBfsNodes at hv
  split at hv
  · simp at hv
  · rcases List.mem_cons.mp hv with rfl | h
    · exact Or.inl rfl
    · obtain ⟨u, hu⟩ := mem_bfsRun g _ _ _ v (List.mem_of_mem_take h)
      exact Or.inr (hwf.adj_subset hu)

/-- Popping the heap minimum returns an element of the queue and keeps
only queue elements. -/
theorem heapPopMin_mem :
    ∀ (q : List (ℚ × ℕ × Var)) (e : ℚ × ℕ × Var) (q2 : List (ℚ × ℕ × Var)),
    heapPopMin q = some (e, q2) → e ∈ q ∧ ∀ x ∈ q2, x ∈ q := by
  intro q
  induction q with
  | nil =>
    intro e q2 h
    simp [heapPopMin] at h
  | cons a rest ih =>
    intro e q2 h
    rw [heapPopMin] at h
    split at h
    · next hr =>
      simp only [Option.some.injEq, Prod.mk.injEq] at h
      obtain ⟨rfl, rfl⟩ := h
      exact ⟨List.mem_cons_self a rest, by simp⟩
    · next m rest2 hr =>
      split at h
      · next hc =>
        simp only [Option.some.injEq, Prod.mk.injEq] at h
        obtain ⟨rfl, rfl⟩ := h
        exact ⟨List.mem_cons_self a rest, fun x hx => List.mem_cons_of_mem a hx⟩
      · next hc =>
        simp only [Option.some.injEq, Prod.mk.injEq] at h
        obtain ⟨rfl, rfl⟩ := h
        obtain ⟨hm, hsub⟩ := ih m rest2 hr
        refine ⟨List.mem_cons_of_mem a hm, ?_⟩
        intro x hx
        rcases List.mem_cons.mp hx with rfl | hx2
        · exact List.mem_cons_self x rest
        · exact List.mem_cons_of_mem a (hsub x hx2)

/-- The PFS loop never grows the visit list beyond `size`. -/
theorem pfsRun_length_le (g : NxGraph) (prioFn : Var → ℚ) (size : ℕ) :
    ∀ (fuel : ℕ) (queue : List (ℚ × ℕ × Var)) (counter : ℕ)
      (visited enqueued : List Var),
    visited.length ≤ size →
    (pfsRun g prioFn size fuel queue counter visited enqueued).length ≤ size := by
  intro fuel
  induction fuel with
  | zero =>
    intro queue counter visited enqueued hlen
    simpa [pfsRun] using hlen
  | succ f ih =>
    intro queue counter visited enqueued hlen
    rw [pfsRun]
    split
    · next hsz =>
      split
      · exact hlen
      · next e queue2 =>
        split
        · exact ih _ _ _ _ hlen
        · refine ih _ _ _ _ ?_
          simp only [List.length_append, List.length_cons, List.length_nil]
          omega
    · exact hlen

/-- The PFS loop visits only the seeded node and graph nodes. -/
theorem pfsRun_mem {g : NxGraph} (hwf : g.WF) (prioFn : Var → ℚ) (size : ℕ)
    (s : Var) :
    ∀ (fuel : ℕ) (queue : List (ℚ × ℕ × Var)) (counter : ℕ)
      (visited enqueued : List Var) (v : Var),
    (∀ x ∈ visited, x = s ∨ x ∈ g.nodes) →
    (∀ e ∈ queue, e.2.2 = s ∨ e.2.2 ∈ g.nodes) →
    v ∈ pfsRun g prioFn size fuel queue counter visited enqueued →
    v = s ∨ v ∈ g.nodes := by
  intro fuel
  induction fuel with
  | zero =>
    intro queue counter visited enqueued v hvis hque hv
    rw [pfsRun] at hv
    exact hvis v hv
  | succ f ih =>
    intro queue counter visited enqueued v hvis hque hv
    rw [pfsRun] at hv
    split at hv
    · next hsz =>
      split at hv
      · exact hvis v hv
      · next e queue2 hpop =>
        obtain ⟨hein, hsubq⟩ := heapPopMin_mem queue e queue2 hpop
        split at hv
        · exact ih _ _ _ _ v hvis (fun x hx => hque x (hsubq x hx)) hv
        · refine ih _ _ _ _ v ?_ ?_ hv
          · intro x hx
            rcases List.mem_append.mp hx with h | h
            · exact hvis x h
            · rw [List.mem_singleton.mp h]
              exact hque e hein
          · intro x hx
            rcases List.mem_append.mp hx with h | h
            · exact hque x (hsubq x h)
            · simp only [List.mem_map] at h
              obtain ⟨pr, hpr, rfl⟩ := h
              have hsnd : pr.2 ∈ (g.adj e.2.2).filter
                  (fun u => !(enqueued.contains u)) := by
                have h2 := (List.mem_enum_iff_getElem?).mp hpr
                exact List.getElem?_mem h2
              exact Or.inr (hwf.adj_subset (List.mem_of_mem_filter hsnd))
    · exact hvis v hv

/-- `_pfs_nodes` returns at most `size` nodes. -/
theorem nxPfsNodes_length_le (g : NxGraph) (s : Var) (k : ℕ) (p : Var → ℚ) :
    (nxPfsNodes g s k p).length ≤ k := by
  unfold nxPfsNodes
  split
  · simp
  · exact pfsRun_length_le g p k _ _ _ _ _ (by simp)

/-- `_pfs_nodes` returns only the source and graph nodes. -/
theorem mem_nxPfsNodes {g : NxGraph} (hwf : g.WF) (s : Var) (k : ℕ)
    (p : Var → ℚ) (v : Var) (hv : v ∈ nxPfsNodes g s k p) :
    v = s ∨ v ∈ g.nodes := by
  unfold nxPfsNodes at hv
  split at hv
  · simp at hv
  · refine pfsRun_mem hwf p k s _ _ _ _ _ v (by simp) ?_ hv
    intro e he
    rw [List.mem_singleton.mp he]
    exact Or.inl rfl

/-- The first element surviving `dropWhile` falsifies the predicate. -/
theorem dropWhile_head_false (p : Var → Bool) :
    ∀ (l : List Var) (x : Var) (xs : List Var),
    l.dropWhile p = x :: xs → p x = false := by
  intro l
  induction l with
  | nil =>
    intro x xs h
    simp [List.dropWhile] at h
  | cons a t ih =>
    intro x xs h
    rw [List.dropWhile_cons] at h
    split at h
    · exact ih x xs h
    · next hpa =>
      cases h
      simpa using hpa

/-- Invariant of the multi-start search loop: given a method that
returns at most the requested number of nodes and only the seed or graph
nodes, the accumulated selection stays within `size` and never meets the
visited set.  (`fuel` bounds the length of the remaining seed order.) -/
theorem igsGo_spec (method : NxGraph → Var → ℕ → (Var → ℚ) → List Var)
    (prioFn : Var → ℚ) (visited : Finset Var) (size : ℕ)
    (hmlen : ∀ (g2 : NxGraph) (s : Var) (k : ℕ), (method g2 s k prioFn).length ≤ k)
    (hmmem : ∀ (g2 : NxGraph), g2.WF → ∀ (s : Var) (k : ℕ),
      ∀ v ∈ method g2 s k prioFn, v = s ∨ v ∈ g2.nodes) :
    ∀ (fuel : ℕ) (order : List Var), order.length ≤ fuel →
    ∀ (graph : NxGraph) (vars : Finset Var),
    graph.WF → (∀ v ∈ graph.nodes, v ∉ visited) → vars.card ≤ size →
    (∀ v ∈ vars, v ∉ visited) →
    (igsGo method prioFn visited size graph order vars).card ≤ size
    ∧ ∀ v ∈ igsGo method prioFn visited size graph order vars, v ∉ visited := by
  intro fuel
  induction fuel with
  | zero =>
    intro order hord graph vars hwf hdisj hcard hvars
    have hnil : order = [] := List.eq_nil_of_length_eq_zero (Nat.le_zero.mp hord)
    subst hnil
    rw [igsGo]
    split
    · exact ⟨hcard, hvars⟩
    · exact ⟨hcard, hvars⟩
  | succ n ih =>
    intro order hord graph vars hwf hdisj hcard hvars
    rw [igsGo]
    split
    · exact ⟨hcard, hvars⟩
    · next hcond =>
      cases horder : order.dropWhile
          (fun v => decide (v ∈ visited) || decide (v ∈ vars)) with
      | nil => exact ⟨hcard, hvars⟩
      | cons source order2 =>
        have hlen2 : order2.length ≤ n := by
          have h1 : ∀ (l : List Var) (p2 : Var → Bool),
              (l.dropWhile p2).length ≤ l.length := by
            intro l p2
            induction l with
            | nil => simp
            | cons a t iht =>
              rw [List.dropWhile_cons]
              split
              · exact Nat.le_trans iht (Nat.le_succ _)
              · exact Nat.le_refl _
          have h2 := h1 order (fun v => decide (v ∈ visited) || decide (v ∈ vars))
          rw [horder] at h2
          simp only [List.length_cons] at h2
          omega
        have hsrc : source ∉ visited ∧ source ∉ vars := by
          have h3 := dropWhile_head_false _ order source order2 horder
          simp only [Bool.or_eq_false_iff, decide_eq_false_iff_not] at h3
          exact h3
        have hmem2 : ∀ v ∈ method graph source (size - vars.card) prioFn,
            v ∉ visited := by
          intro v hv
          rcases hmmem graph hwf source (size - vars.card) v hv with rfl | h
          · exact hsrc.1
          · exact hdisj v h
        have hvarscard : vars.card < size := by
          push_neg at hcond
          omega
        have hcard2 : (vars ∪ (method graph source (size - vars.card)
            prioFn).toFinset).card ≤ size := by
          have h2 := card_union_toFinset_le vars
            (method graph source (size - vars.card) prioFn)
          have h3 := hmlen graph source (size - vars.card)
          omega
        have hvars2 : ∀ v ∈ vars ∪ (method graph source (size - vars.card)
            prioFn).toFinset, v ∉ visited := by
          intro v hv
          rcases Finset.mem_union.mp hv with h | h
          · exact hvars v h
          · exact hmem2 v (List.mem_toFinset.mp h)
        have hdisj2 : ∀ v ∈ (graph.removeNodes (method graph source
            (size - vars.card) prioFn).toFinset).nodes, v ∉ visited :=
          fun v hv => hdisj v (NxGraph.mem_removeNodes hv).1
        exact ih order2 hlen2 (graph.removeNodes _) _ (hwf.removeNodes _)
          hdisj2 hcard2 hvars2

/-- C4: for every interaction graph (well-formed adjacency), ranked
variable order, visited set, and target size, the bfs and pfs traversal
strategies return at most `size` variables, and no returned variable is
a member of the visited set passed in. -/
theorem bfs_pfs_traversal_within_size_and_visited (graph : NxGraph)
    (orderedPriority : List (Var × ℚ)) (visited : Finset Var) (size : ℕ)
    (hwf : graph.WF) :
    (iterativeGraphSearch nxBfsNodes graph orderedPriority visited size).card ≤ size
    ∧ (∀ v ∈ iterativeGraphSearch nxBfsNodes graph orderedPriority visited size,
        v ∉ visited)
    ∧ (iterativeGraphSearch nxPfsNodes graph orderedPriority visited size).card ≤ size
    ∧ (∀ v ∈ iterativeGraphSearch nxPfsNodes graph orderedPriority visited size,
        v ∉ visited) := by
  have hdisj : ∀ v ∈ (graph.removeNodes visited).nodes, v ∉ visited :=
    fun v hv => (NxGraph.mem_removeNodes hv).2
  have hbfs := igsGo_spec nxBfsNodes
    (fun v => (List.lookup v orderedPriority).getD 0) visited size
    (fun g2 s k => nxBfsNodes_length_le g2 s k _)
    (fun g2 hwf2 s k v hv => mem_nxBfsNodes hwf2 s k _ v hv)
    (orderedPriority.map Prod.fst).length (orderedPriority.map Prod.fst)
    (Nat.le_refl _) (graph.removeNodes visited) ∅
    (hwf.removeNodes visited) hdisj (by simp) (by simp)
  have hpfs := igsGo_spec nxPfsNodes
    (fun v => (List.lookup v orderedPriority).getD 0) visited size
    (fun g2 s k => nxPfsNodes_length_le g2 s k _)
    (fun g2 hwf2 s k v hv => mem_nxPfsNodes hwf2 s k _ v hv)
    (orderedPriority.map Prod.fst).length (orderedPriority.map Prod.fst)
    (Nat.le_refl _) (graph.removeNodes visited) ∅
    (hwf.removeNodes visited) hdisj (by simp) (by simp)
  exact ⟨hbfs.1, hbfs.2, hpfs.1, hpfs.2⟩

/-- C4 witness: a path graph on four variables. -/
theorem bfs_pfs_traversal_within_size_and_visited_witness :
    (iterativeGraphSearch nxBfsNodes
      ⟨[0, 1, 2, 3], [(0, [1]), (1, [0, 2]), (2, [1, 3]), (3, [2])]⟩
      [(3, 9), (0, 5), (1, 4), (2, 1)] {3} 2).card ≤ 2
    ∧ (∀ v ∈ iterativeGraphSearch nxBfsNodes
        ⟨[0, 1, 2, 3], [(0, [1]), (1, [0, 2]), (2, [1, 3]), (3, [2])]⟩
        [(3, 9), (0, 5), (1, 4), (2, 1)] {3} 2, v ∉ ({3} : Finset Var))
    ∧ (iterativeGraphSearch nxPfsNodes
        ⟨[0, 1, 2, 3], [(0, [1]), (1, [0, 2]), (2, [1, 3]), (3, [2])]⟩
        [(3, 9), (0, 5), (1, 4), (2, 1)] {3} 2).card ≤ 2
    ∧ (∀ v ∈ iterativeGraphSearch nxPfsNodes
        ⟨[0, 1, 2, 3], [(0, [1]), (1, [0, 2]), (2, [1, 3]), (3, [2])]⟩
        [(3, 9), (0, 5), (1, 4), (2, 1)] {3} 2, v ∉ ({3} : Finset Var)) :=
  bfs_pfs_traversal_within_size_and_visited
    ⟨[0, 1, 2, 3], [(0, [1]), (1, [0, 2]), (2, [1, 3]), (3, [2])]⟩
    [(3, 9), (0, 5), (1, 4), (2, 1)] {3} 2 (by decide)

end DwaveHybrid
